import Mathlib

/-
Verification of the wx-storage command-dispatch and time-ordered storage engine
(src/lib.rs) against its natural-language specification.

Shallow embedding conventions:
* Byte strings are `List Nat` (each element a byte value).
* The RocksDB database is modelled as three namespaces held in the `Store`
  structure: the default column family `db` (an association list, point
  lookups only), and the `events` / `fetch_failures` column families, kept as
  association lists sorted in ascending bytewise key order — RocksDB's default
  bytewise comparator — so a raw-iterator seek-and-scan is a filter.
* The wall clock (`wx::util::get_system_micros`, an external collaborator) is
  passed to every operation as an explicit `now : Nat` argument; a u64 clock
  satisfies `now < 2 ^ 64`.
* u64 arithmetic that can wrap (the `now - threshold` cutoff, the cursor
  `key + 1`) is modelled by explicit wrapping operations `sub64` / `add64`.
* Fallible Rust code returns `RustResult`: `ok` for `Ok(..)`, `err` for a
  returned `Err(Error)`, and `panicked` for a `.unwrap()` panic on malformed
  input (the source comments mark these: `// TODO this panics`).
* `bincode` (legacy fixint little-endian encoding) is modelled byte-exactly
  for the primitives the store itself touches: u64 values, `(&str, &[u8])`
  tuples, strings, and length-prefixed lists.
-/

namespace WxStore

/-- Byte strings; each element models one byte. -/
abbrev Bytes := List Nat

/-- Bytewise lexicographic order on keys: RocksDB's default comparator
(memcmp order, a strict prefix sorts first). -/
def bytesLt : Bytes → Bytes → Bool
  | [], [] => false
  | [], _ :: _ => true
  | _ :: _, [] => false
  | a :: as, b :: bs => decide (a < b) || (decide (a = b) && bytesLt as bs)

/-- Little-endian fixed-width integer encoding: `w` bytes of `n`
(bincode's fixint encoding of u64 uses `w = 8`; this also models the
`mem::transmute::<u64, [u8; 8]>` of the record count on a little-endian
target). -/
def leBytes : Nat → Nat → Bytes
  | _, 0 => []
  | n, w + 1 => n % 256 :: leBytes (n / 256) w

/-- Read a little-endian integer back from bytes. -/
def deLe : Bytes → Nat
  | [] => 0
  | b :: bs => b + 256 * deLe bs

/-- Fuel-driven core of decimal printing: pushes the decimal digits of `n`
(as ASCII bytes) in front of `acc`, most significant first. -/
def decDigitsCore : Nat → Nat → Bytes → Bytes
  | 0, _, acc => acc
  | fuel + 1, n, acc => if n = 0 then acc else decDigitsCore fuel (n / 10) ((n % 10 + 48) :: acc)

/-- The ASCII bytes of `u64::to_string`: the key written for a timestamp in
the time-ordered namespaces (`micros.to_string().as_bytes()`). -/
def decKey (n : Nat) : Bytes := if n = 0 then [48] else decDigitsCore n n []

/-- One step of reading a most-significant-first decimal digit string. -/
def digitStep (a d : Nat) : Nat := a * 10 + (d - 48)

/-- Numeric value of an ASCII decimal digit string. -/
def digitsVal (bs : Bytes) : Nat := bs.foldl digitStep 0

/-- `str::parse::<u64>` on the bytes of the string: succeeds on a nonempty
all-digit string whose value fits in a u64. -/
def parseU64 (bs : Bytes) : Option Nat :=
  if bs.isEmpty then none
  else if bs.all (fun b => decide (48 ≤ b) && decide (b ≤ 57)) then
    if digitsVal bs < 2 ^ 64 then some (digitsVal bs) else none
  else none

/-- Modelled from the spec: `wx::domain::Event` and `wx::domain::FetchFailure`
live in the external `wx` crate, absent from this repository. Spec §3: a
record is a byte blob that the store deserializes only far enough to read and
overwrite a single u64 `ingest_ts` field; every other field is opaque and is
carried here as the byte string `rest`. -/
structure Record where
  ingest_ts : Nat
  rest : Bytes
deriving DecidableEq

/-- Modelled from the spec: the bincode serialization of a record — the
`ingest_ts` field as 8 little-endian bytes, followed by the remaining record
fields as a self-delimiting (length-prefixed) byte blob. -/
def serializeRecord (r : Record) : Bytes :=
  leBytes r.ingest_ts 8 ++ (leBytes r.rest.length 8 ++ r.rest)

/-- Deserialize one record off the front of a byte string, returning the
record and the unconsumed remainder. -/
def deserializeRecordAt (bs : Bytes) : Option (Record × Bytes) :=
  if 16 ≤ bs.length then
    if deLe ((bs.drop 8).take 8) ≤ (bs.drop 16).length then
      some (⟨deLe (bs.take 8), (bs.drop 16).take (deLe ((bs.drop 8).take 8))⟩,
            (bs.drop 16).drop (deLe ((bs.drop 8).take 8)))
    else none
  else none

/-- `bincode::deserialize` of a record (trailing bytes ignored). -/
def deserializeRecord (bs : Bytes) : Option Record :=
  (deserializeRecordAt bs).map (fun p => p.1)

/-- bincode encoding of a `(&str, &[u8])` pair: 8-byte LE length + string
bytes, then 8-byte LE length + value bytes. -/
def serializeKV (k v : Bytes) : Bytes :=
  leBytes k.length 8 ++ (k ++ (leBytes v.length 8 ++ v))

/-- `bincode::deserialize::<(&str, &[u8])>` on a payload; `none` models the
decode error that the source meets with `.unwrap()`. -/
def deserializeKV (bs : Bytes) : Option (Bytes × Bytes) :=
  if 8 ≤ bs.length then
    if deLe (bs.take 8) ≤ (bs.drop 8).length then
      if 8 ≤ ((bs.drop 8).drop (deLe (bs.take 8))).length then
        if deLe (((bs.drop 8).drop (deLe (bs.take 8))).take 8) ≤
            (((bs.drop 8).drop (deLe (bs.take 8))).drop 8).length then
          some ((bs.drop 8).take (deLe (bs.take 8)),
                (((bs.drop 8).drop (deLe (bs.take 8))).drop 8).take
                  (deLe (((bs.drop 8).drop (deLe (bs.take 8))).take 8)))
        else none
      else none
    else none
  else none

/-- bincode encoding of a `&str`: 8-byte LE length + string bytes. -/
def serializeStr (sb : Bytes) : Bytes := leBytes sb.length 8 ++ sb

/-- `bincode::deserialize::<&str>` (the cursor payload of `GetEvents`). -/
def deserializeStr (bs : Bytes) : Option Bytes :=
  if 8 ≤ bs.length then
    if deLe (bs.take 8) ≤ (bs.drop 8).length then some ((bs.drop 8).take (deLe (bs.take 8)))
    else none
  else none

/-- Concatenation of raw record byte strings (the scan loop's `buffer`). -/
def concatBytes : List Bytes → Bytes
  | [] => []
  | b :: bs => b ++ concatBytes bs

/-- The response envelope built by a scan: the 8-byte record count followed by
the concatenated raw stored bytes of the visited entries. -/
def envelopeOf (visited : List (Bytes × Bytes)) : Bytes :=
  leBytes visited.length 8 ++ concatBytes (visited.map (fun p => p.2))

/-- `raw_iterator.seek(k)` followed by the `while iter.valid()` loop on a
namespace sorted in ascending key order: visits exactly the entries whose key
is ≥ `k` in bytewise order, in stored order. -/
def seekScan (ns : List (Bytes × Bytes)) (k : Bytes) : List (Bytes × Bytes) :=
  ns.filter (fun p => ! bytesLt p.1 k)

/-- `db.put_cf`: durable upsert into a namespace kept sorted by key. -/
def insertCf (ns : List (Bytes × Bytes)) (k v : Bytes) : List (Bytes × Bytes) :=
  match ns with
  | [] => [(k, v)]
  | p :: rest =>
    if bytesLt k p.1 then (k, v) :: p :: rest
    else if k = p.1 then (k, v) :: rest
    else p :: insertCf rest k v

/-- `db.put` on the default column family (iteration order never used). -/
def dbPut (db : List (Bytes × Bytes)) (k v : Bytes) : List (Bytes × Bytes) := (k, v) :: db

/-- `db.get` on the default column family: point lookup. -/
def dbGet (db : List (Bytes × Bytes)) (k : Bytes) : Option Bytes :=
  (db.find? (fun p => decide (p.1 = k))).map (fun p => p.2)

/-- Wrapping u64 subtraction: the unguarded `now - threshold` cutoff
computation (release-build semantics; a checked build panics on underflow). -/
def sub64 (a b : Nat) : Nat := (a + 2 ^ 64 - b % 2 ^ 64) % 2 ^ 64

/-- Wrapping u64 addition: the cursor's `key + 1`. -/
def add64 (a b : Nat) : Nat := (a + b) % 2 ^ 64

/-- The two `WxError` messages `process_msg` itself creates. -/
inductive ErrKind where
  | invalidMessageLength
  | unknownCommand
deriving DecidableEq

/-- Outcome of a store operation or of `process_msg`: a returned `Ok(bytes)`,
a returned `Err(Error)`, or a `.unwrap()` panic (which the binary does not
catch). -/
inductive RustResult where
  | ok : Bytes → RustResult
  | err : ErrKind → RustResult
  | panicked : RustResult
deriving DecidableEq

/-- The store: the three namespaces plus the two configured retention
thresholds (fields named as in `struct Store`; the column-family handles are
modelled by the namespace contents themselves). -/
structure Store where
  db : List (Bytes × Bytes)
  events : List (Bytes × Bytes)
  fetch_failures : List (Bytes × Bytes)
  event_threshold_micros : Nat
  fetch_failure_threshold_micros : Nat
deriving DecidableEq

/-- `Store::new` against a fresh path: all namespaces empty. -/
def initStore (etm fftm : Nat) : Store :=
  { db := [], events := [], fetch_failures := [],
    event_threshold_micros := etm, fetch_failure_threshold_micros := fftm }

/-- `Store::put`: deserialize the `(key, value)` tuple (unwrap), write to the
default namespace, return the raw key bytes. -/
def Store.put (s : Store) (payload : Bytes) : RustResult × Store :=
  match deserializeKV payload with
  | none => (RustResult.panicked, s)
  | some kv => (RustResult.ok kv.1, { s with db := dbPut s.db kv.1 kv.2 })

/-- `Store::get`: point lookup; a missing key yields `Ok(vec![])`. -/
def Store.get (s : Store) (key : Bytes) : RustResult × Store :=
  match dbGet s.db key with
  | some v => (RustResult.ok v, s)
  | none => (RustResult.ok [], s)

/-- `Store::put_event`: stamp the record with the clock value, store it under
the decimal-string key of that value, return the 8-byte serialized timestamp. -/
def Store.put_event (s : Store) (value : Bytes) (now : Nat) : RustResult × Store :=
  match deserializeRecord value with
  | none => (RustResult.panicked, s)
  | some ev =>
    (RustResult.ok (leBytes now 8),
     { s with events := insertCf s.events (decKey now) (serializeRecord { ev with ingest_ts := now }) })

/-- `Store::get_events`: the three seek policies — get-all (seek to first),
threshold scan (empty key: seek to `now - event_threshold_micros`), resume
scan (cursor: deserialize the string, parse it as u64, add 1, seek there). -/
def Store.get_events (s : Store) (key : Bytes) (get_all : Bool) (now : Nat) : RustResult × Store :=
  if get_all then
    (RustResult.ok (envelopeOf s.events), s)
  else if key.isEmpty then
    (RustResult.ok (envelopeOf (seekScan s.events (decKey (sub64 now s.event_threshold_micros)))), s)
  else
    match deserializeStr key with
    | none => (RustResult.panicked, s)
    | some sb =>
      match parseU64 sb with
      | none => (RustResult.panicked, s)
      | some c =>
        (RustResult.ok (envelopeOf (seekScan s.events (decKey (add64 c 1)))), s)

/-- `Store::put_fetch_failure`: as `put_event` but into `fetch_failures`,
returning an empty success payload. -/
def Store.put_fetch_failure (s : Store) (value : Bytes) (now : Nat) : RustResult × Store :=
  match deserializeRecord value with
  | none => (RustResult.panicked, s)
  | some f =>
    (RustResult.ok [],
     { s with fetch_failures :=
        insertCf s.fetch_failures (decKey now) (serializeRecord { f with ingest_ts := now }) })

/-- `Store::get_fetch_failures`: always a threshold scan with cutoff
`now - fetch_failure_threshold_micros`. -/
def Store.get_fetch_failures (s : Store) (now : Nat) : RustResult × Store :=
  (RustResult.ok
    (envelopeOf (seekScan s.fetch_failures (decKey (sub64 now s.fetch_failure_threshold_micros)))), s)

/-- The seven opcodes. -/
inductive Command where
  | put
  | get
  | putEvent
  | getEvents
  | getAllEvents
  | putFetchFailure
  | getFetchFailures
deriving DecidableEq

/-- Modelled from the spec: `wx::store::Command::from` lives in the external
`wx` crate, absent from this repository; spec §4.2 gives the opcode table
0 Put, 1 Get, 2 PutEvent, 3 GetEvents, 4 GetAllEvents, 5 PutFetchFailure,
6 GetFetchFailures, anything else unrecognized. -/
def Command.ofByte : Nat → Option Command
  | 0 => some Command.put
  | 1 => some Command.get
  | 2 => some Command.putEvent
  | 3 => some Command.getEvents
  | 4 => some Command.getAllEvents
  | 5 => some Command.putFetchFailure
  | 6 => some Command.getFetchFailures
  | _ + 7 => none

/-- `process_msg`: reject an empty message, dispatch the first byte as the
opcode and the rest as the payload. Returns the operation's outcome and the
resulting store state. -/
def process_msg (msg : Bytes) (s : Store) (now : Nat) : RustResult × Store :=
  match msg with
  | [] => (RustResult.err ErrKind.invalidMessageLength, s)
  | b :: payload =>
    match Command.ofByte b with
    | some Command.put => s.put payload
    | some Command.get => s.get payload
    | some Command.putEvent => s.put_event payload now
    | some Command.getEvents => s.get_events payload false now
    | some Command.getAllEvents => s.get_events payload true now
    | some Command.putFetchFailure => s.put_fetch_failure payload now
    | some Command.getFetchFailures => s.get_fetch_failures now
    | none => (RustResult.err ErrKind.unknownCommand, s)

/-- A sequence of requests, each with the clock value at which it runs. -/
def runMsgs (ops : List (Bytes × Nat)) (s : Store) : Store :=
  ops.foldl (fun st op => (process_msg op.1 st op.2).2) s

/-- A stored entry is well formed when its value deserializes to a record
whose `ingest_ts` is exactly the decimal value of the key it is stored under. -/
def entryOkB (p : Bytes × Bytes) : Bool :=
  match deserializeRecord p.2 with
  | some r => decide (parseU64 p.1 = some r.ingest_ts)
  | none => false

/-- All entries of a time-ordered namespace are well formed. -/
abbrev nsInv (ns : List (Bytes × Bytes)) : Prop := ∀ p ∈ ns, entryOkB p = true

/-- The namespace is sorted in strictly ascending bytewise key order (the
order RocksDB iterates in). -/
abbrev nsSorted (ns : List (Bytes × Bytes)) : Prop :=
  List.Pairwise (fun p q => bytesLt p.1 q.1 = true) ns

/-- The `ingest_ts` of the stored record bytes (0 if undecodable). -/
def recordTs (v : Bytes) : Nat :=
  match deserializeRecord v with
  | some r => r.ingest_ts
  | none => 0

/-- The entries' timestamps are strictly ascending. -/
abbrev tsAscending (ns : List (Bytes × Bytes)) : Prop :=
  List.Pairwise (fun p q => recordTs p.2 < recordTs q.2) ns

/-- Both time-ordered namespaces are well formed. -/
abbrev StoreInv (s : Store) : Prop := nsInv s.events ∧ nsInv s.fetch_failures

/-- A `ProtocolError`: one of the two errors `process_msg` itself returns. -/
def isProtocolError : RustResult → Prop
  | RustResult.err _ => True
  | _ => False

/-- An event record carrying a given timestamp and no other field content. -/
def evRec (t : Nat) : Record := { ingest_ts := t, rest := [] }

/-- Caller-side decode of a scan envelope: read the 8-byte count, then that
many records (bincode's encoding of a record list). -/
def readRecords : Nat → Bytes → Option (List Record)
  | 0, _ => some []
  | n + 1, bs =>
    match deserializeRecordAt bs with
    | some rp => (readRecords n rp.2).map (fun l => rp.1 :: l)
    | none => none

/-- Decode a whole envelope as a record list. -/
def deserializeRecList (bs : Bytes) : Option (List Record) :=
  if 8 ≤ bs.length then readRecords (deLe (bs.take 8)) (bs.drop 8) else none

/-- Store holding events at timestamps 10 and 5 (keys of different digit
count, so bytewise key order disagrees with numeric order), with an event
retention threshold of 10 microseconds. -/
def storeTenFive : Store :=
  { db := [],
    events := [(decKey 10, serializeRecord (evRec 10)), (decKey 5, serializeRecord (evRec 5))],
    fetch_failures := [],
    event_threshold_micros := 10, fetch_failure_threshold_micros := 0 }

/-- Store holding a single event at timestamp 9. -/
def storeNine : Store :=
  { db := [],
    events := [(decKey 9, serializeRecord (evRec 9))],
    fetch_failures := [],
    event_threshold_micros := 1000, fetch_failure_threshold_micros := 0 }

/-- Store holding fetch failures at timestamps 10 and 5, with a fetch-failure
retention threshold of 10 microseconds. -/
def storeFailTenFive : Store :=
  { db := [],
    events := [],
    fetch_failures := [(decKey 10, serializeRecord (evRec 10)), (decKey 5, serializeRecord (evRec 5))],
    event_threshold_micros := 0, fetch_failure_threshold_micros := 10 }

/-- Store holding one event at timestamp 15 with an event retention threshold
of 7 microseconds (all key digit counts agree). -/
def storeW1 : Store :=
  { db := [],
    events := [(decKey 15, serializeRecord (evRec 15))],
    fetch_failures := [],
    event_threshold_micros := 7, fetch_failure_threshold_micros := 0 }

/-- Store holding events at timestamps 12 and 15 (equal key digit counts). -/
def storeW6 : Store :=
  { db := [],
    events := [(decKey 12, serializeRecord (evRec 12)), (decKey 15, serializeRecord (evRec 15))],
    fetch_failures := [],
    event_threshold_micros := 0, fetch_failure_threshold_micros := 0 }

/-- Store holding one fetch failure at timestamp 15 with a fetch-failure
retention threshold of 7 microseconds. -/
def storeW7 : Store :=
  { db := [],
    events := [],
    fetch_failures := [(decKey 15, serializeRecord (evRec 15))],
    event_threshold_micros := 0, fetch_failure_threshold_micros := 7 }

end WxStore

namespace WxStore

/-! ### Little-endian encoding lemmas -/

theorem length_leBytes : ∀ (w n : Nat), (leBytes n w).length = w := by
  intro w
  induction w with
  | zero => intro n; rfl
  | succ w ih => intro n; simp [leBytes, ih]

theorem deLe_leBytes_mod : ∀ (w n : Nat), deLe (leBytes n w) = n % 256 ^ w := by
  intro w
  induction w with
  | zero => intro n; simp [leBytes, deLe, Nat.mod_one]
  | succ w ih =>
    intro n
    have hp : (256 : Nat) ^ (w + 1) = 256 * 256 ^ w := by
      rw [pow_succ, Nat.mul_comm]
    rw [hp, Nat.mod_mul]
    simp [leBytes, deLe, ih]

theorem deLe_leBytes (w n : Nat) (h : n < 256 ^ w) : deLe (leBytes n w) = n := by
  rw [deLe_leBytes_mod, Nat.mod_eq_of_lt h]

theorem pow256_8 : (256 : Nat) ^ 8 = 2 ^ 64 := by norm_num

theorem take_length_append (l1 l2 : Bytes) : (l1 ++ l2).take l1.length = l1 := by simp

theorem drop_length_append (l1 l2 : Bytes) : (l1 ++ l2).drop l1.length = l2 := by simp

theorem take8_append (n : Nat) (l : Bytes) : (leBytes n 8 ++ l).take 8 = leBytes n 8 := by
  have h := take_length_append (leBytes n 8) l
  rwa [length_leBytes] at h

theorem drop8_append (n : Nat) (l : Bytes) : (leBytes n 8 ++ l).drop 8 = l := by
  have h := drop_length_append (leBytes n 8) l
  rwa [length_leBytes] at h

theorem deLe_take8_append (n : Nat) (l : Bytes) (h : n < 2 ^ 64) :
    deLe ((leBytes n 8 ++ l).take 8) = n := by
  rw [take8_append]
  exact deLe_leBytes 8 n (by rw [pow256_8]; exact h)

/-! ### Decimal key lemmas -/

theorem decDigitsCore_zero : ∀ (f : Nat) (acc : Bytes), decDigitsCore f 0 acc = acc := by
  intro f acc
  cases f <;> simp [decDigitsCore]

theorem decCore_append : ∀ (f n : Nat) (acc : Bytes),
    decDigitsCore f n acc = decDigitsCore f n [] ++ acc := by
  intro f
  induction f with
  | zero => intro n acc; simp [decDigitsCore]
  | succ f ih =>
    intro n acc
    by_cases hn : n = 0
    · simp [decDigitsCore, hn]
    · rw [show decDigitsCore (f + 1) n acc =
            decDigitsCore f (n / 10) ((n % 10 + 48) :: acc) by simp [decDigitsCore, hn],
          show decDigitsCore (f + 1) n [] =
            decDigitsCore f (n / 10) ((n % 10 + 48) :: []) by simp [decDigitsCore, hn],
          ih (n / 10) ((n % 10 + 48) :: acc), ih (n / 10) ((n % 10 + 48) :: [])]
      simp

theorem digitsVal_snoc (xs : Bytes) (d : Nat) :
    digitsVal (xs ++ [d]) = digitsVal xs * 10 + (d - 48) := by
  simp [digitsVal, List.foldl_append, digitStep]

theorem decCore_spec : ∀ (f n : Nat), 0 < n → n ≤ f →
    digitsVal (decDigitsCore f n []) = n ∧
    (∀ b ∈ decDigitsCore f n [], 48 ≤ b ∧ b ≤ 57) ∧
    decDigitsCore f n [] ≠ [] ∧
    (decDigitsCore f n []).length ≤ n := by
  intro f
  induction f with
  | zero => intro n h0 hf; omega
  | succ f ih =>
    intro n h0 hf
    have hn : n ≠ 0 := by omega
    have hstep : decDigitsCore (f + 1) n [] = decDigitsCore f (n / 10) [n % 10 + 48] := by
      simp [decDigitsCore, hn]
    by_cases hq : n / 10 = 0
    · have hlt : n < 10 := by omega
      rw [hstep, hq, decDigitsCore_zero]
      refine ⟨?_, ?_, ?_, ?_⟩
      · simp [digitsVal, digitStep]; omega
      · intro b hb; simp at hb; omega
      · simp
      · simp; omega
    · have hqpos : 0 < n / 10 := Nat.pos_of_ne_zero hq
      have hqle : n / 10 ≤ f := by omega
      obtain ⟨hval, hdig, hne, hlen⟩ := ih (n / 10) hqpos hqle
      rw [hstep, decCore_append]
      refine ⟨?_, ?_, ?_, ?_⟩
      · rw [digitsVal_snoc, hval]; omega
      · intro b hb
        rcases List.mem_append.mp hb with h | h
        · exact hdig b h
        · simp at h; omega
      · simp
      · simp only [List.length_append, List.length_singleton]
        omega

theorem digitsVal_decKey (n : Nat) : digitsVal (decKey n) = n := by
  by_cases hn : n = 0
  · simp [decKey, hn, digitsVal, digitStep]
  · rw [decKey, if_neg hn]
    exact (decCore_spec n n (Nat.pos_of_ne_zero hn) (Nat.le_refl n)).1

theorem decKey_digits (n : Nat) : ∀ b ∈ decKey n, 48 ≤ b ∧ b ≤ 57 := by
  by_cases hn : n = 0
  · intro b hb; simp [decKey, hn] at hb; omega
  · rw [decKey, if_neg hn]
    exact (decCore_spec n n (Nat.pos_of_ne_zero hn) (Nat.le_refl n)).2.1

theorem decKey_ne_nil (n : Nat) : decKey n ≠ [] := by
  by_cases hn : n = 0
  · simp [decKey, hn]
  · rw [decKey, if_neg hn]
    exact (decCore_spec n n (Nat.pos_of_ne_zero hn) (Nat.le_refl n)).2.2.1

theorem decKey_length_le (n : Nat) : (decKey n).length ≤ n + 1 := by
  by_cases hn : n = 0
  · simp [decKey, hn]
  · rw [decKey, if_neg hn]
    have := (decCore_spec n n (Nat.pos_of_ne_zero hn) (Nat.le_refl n)).2.2.2
    omega

theorem foldl_digitStep (bs : Bytes) : ∀ i : Nat,
    bs.foldl digitStep i = i * 10 ^ bs.length + digitsVal bs := by
  induction bs with
  | nil => intro i; simp [digitsVal]
  | cons d ds ih =>
    intro i
    have h1 : (d :: ds).foldl digitStep i = ds.foldl digitStep (i * 10 + (d - 48)) := by
      simp [digitStep]
    have h2 : digitsVal (d :: ds) = ds.foldl digitStep (0 * 10 + (d - 48)) := by
      simp [digitsVal, digitStep]
    rw [h1, h2, ih (i * 10 + (d - 48)), ih (0 * 10 + (d - 48))]
    simp [List.length_cons, pow_succ]
    ring

theorem digitsVal_cons (d : Nat) (ds : Bytes) :
    digitsVal (d :: ds) = (d - 48) * 10 ^ ds.length + digitsVal ds := by
  have h : digitsVal (d :: ds) = ds.foldl digitStep (0 * 10 + (d - 48)) := by
    simp [digitsVal, digitStep]
  rw [h, foldl_digitStep]
  simp

theorem digitsVal_lt (bs : Bytes) (h : ∀ b ∈ bs, b ≤ 57) :
    digitsVal bs < 10 ^ bs.length := by
  induction bs with
  | nil => simp [digitsVal]
  | cons d ds ih =>
    have hd : d ≤ 57 := h d (List.mem_cons_self d ds)
    have hds := ih (fun b hb => h b (List.mem_cons_of_mem d hb))
    rw [digitsVal_cons]
    have h9 : d - 48 ≤ 9 := by omega
    have h1 : (d - 48) * 10 ^ ds.length ≤ 9 * 10 ^ ds.length :=
      Nat.mul_le_mul_right _ h9
    have h2 : (10 : Nat) ^ (d :: ds).length = 10 * 10 ^ ds.length := by
      simp [List.length_cons, pow_succ]; ring
    omega

theorem headDigit_lt (a b v w P : Nat) (ha : 48 ≤ a) (hab : a < b)
    (hv : v < P) : (a - 48) * P + v < (b - 48) * P + w := by
  have h1 : a - 48 + 1 ≤ b - 48 := by omega
  have h2 : (a - 48 + 1) * P ≤ (b - 48) * P := Nat.mul_le_mul_right _ h1
  have h3 : (a - 48 + 1) * P = (a - 48) * P + P := by ring
  omega

theorem bytesLt_digits_iff : ∀ (xs ys : Bytes),
    (∀ b ∈ xs, 48 ≤ b ∧ b ≤ 57) → (∀ b ∈ ys, 48 ≤ b ∧ b ≤ 57) →
    xs.length = ys.length →
    (bytesLt xs ys = true ↔ digitsVal xs < digitsVal ys) := by
  intro xs
  induction xs with
  | nil =>
    intro ys _ _ hlen
    have : ys = [] := List.length_eq_zero.mp hlen.symm
    subst this
    simp [bytesLt]
  | cons a as ih =>
    intro ys hx hy hlen
    cases ys with
    | nil => simp at hlen
    | cons b bs =>
      have hlen' : as.length = bs.length := by simpa using hlen
      have ha : 48 ≤ a ∧ a ≤ 57 := hx a (List.mem_cons_self a as)
      have hb : 48 ≤ b ∧ b ≤ 57 := hy b (List.mem_cons_self b bs)
      have hxs : ∀ c ∈ as, 48 ≤ c ∧ c ≤ 57 := fun c hc => hx c (List.mem_cons_of_mem a hc)
      have hys : ∀ c ∈ bs, 48 ≤ c ∧ c ≤ 57 := fun c hc => hy c (List.mem_cons_of_mem b hc)
      have hvx : digitsVal as < 10 ^ as.length := digitsVal_lt as (fun c hc => (hxs c hc).2)
      have hvy : digitsVal bs < 10 ^ bs.length := digitsVal_lt bs (fun c hc => (hys c hc).2)
      have hPpos : 0 < (10 : Nat) ^ as.length := Nat.pos_pow_of_pos _ (by omega)
      rw [digitsVal_cons, digitsVal_cons, ← hlen']
      rcases Nat.lt_trichotomy a b with hab | hab | hab
      · constructor
        · intro _
          exact headDigit_lt a b _ _ _ ha.1 hab hvx
        · intro _
          simp [bytesLt, hab]
      · subst hab
        have hbeq : bytesLt (a :: as) (a :: bs) = bytesLt as bs := by
          simp [bytesLt]
        rw [hbeq, ih bs hxs hys hlen']
        constructor
        · intro h; omega
        · intro h; omega
      · have hlt : digitsVal (b :: bs) < digitsVal (a :: as) := by
          rw [digitsVal_cons, digitsVal_cons, ← hlen']
          exact headDigit_lt b a _ _ _ hb.1 hab (by rwa [hlen'])
        rw [digitsVal_cons, digitsVal_cons, ← hlen'] at hlt
        have hfalse : bytesLt (a :: as) (b :: bs) = false := by
          simp [bytesLt]
          omega
        rw [hfalse]
        constructor
        · intro h; simp at h
        · intro h; omega

theorem decKey_lt_iff (a b : Nat) (h : (decKey a).length = (decKey b).length) :
    (bytesLt (decKey a) (decKey b) = true ↔ a < b) := by
  rw [bytesLt_digits_iff (decKey a) (decKey b) (decKey_digits a) (decKey_digits b) h,
    digitsVal_decKey, digitsVal_decKey]

theorem parseU64_decKey (n : Nat) (h : n < 2 ^ 64) : parseU64 (decKey n) = some n := by
  have hne : decKey n ≠ [] := decKey_ne_nil n
  have hdig : (decKey n).all (fun b => decide (48 ≤ b) && decide (b ≤ 57)) = true := by
    rw [List.all_eq_true]
    intro b hb
    have := decKey_digits n b hb
    simp
    omega
  rw [parseU64]
  rw [if_neg (by simpa using hne), if_pos hdig, digitsVal_decKey, if_pos h]

theorem parseU64_some (bs : Bytes) (n : Nat) (h : parseU64 bs = some n) :
    bs ≠ [] ∧ (∀ b ∈ bs, 48 ≤ b ∧ b ≤ 57) ∧ digitsVal bs = n ∧ n < 2 ^ 64 := by
  rw [parseU64] at h
  by_cases h1 : bs.isEmpty
  · rw [if_pos h1] at h; simp at h
  · rw [if_neg h1] at h
    by_cases h2 : bs.all (fun b => decide (48 ≤ b) && decide (b ≤ 57))
    · rw [if_pos h2] at h
      by_cases h3 : digitsVal bs < 2 ^ 64
      · rw [if_pos h3] at h
        have heq : digitsVal bs = n := by simpa using h
        refine ⟨by simpa using h1, ?_, heq, by omega⟩
        intro b hb
        have := (List.all_eq_true.mp h2) b hb
        simp at this
        omega
      · rw [if_neg h3] at h; simp at h
    · rw [if_neg h2] at h; simp at h

end WxStore

namespace WxStore

/-! ### Codec round-trip lemmas -/

theorem deserializeStr_serializeStr (sb : Bytes) (h : sb.length < 2 ^ 64) :
    deserializeStr (serializeStr sb) = some sb := by
  have hlen : (serializeStr sb).length = 8 + sb.length := by
    simp [serializeStr, length_leBytes]
  have hdele : deLe ((serializeStr sb).take 8) = sb.length :=
    deLe_take8_append _ _ h
  have hdrop : (serializeStr sb).drop 8 = sb := drop8_append _ _
  rw [deserializeStr, if_pos (by omega), hdele, hdrop, if_pos (Nat.le_refl _),
    List.take_length]

theorem deserializeKV_serializeKV (k v : Bytes) (hk : k.length < 2 ^ 64)
    (hv : v.length < 2 ^ 64) : deserializeKV (serializeKV k v) = some (k, v) := by
  have hlen : (serializeKV k v).length = 8 + (k.length + (8 + v.length)) := by
    simp [serializeKV, length_leBytes]
  have h1 : deLe ((serializeKV k v).take 8) = k.length := deLe_take8_append _ _ hk
  have h2 : (serializeKV k v).drop 8 = k ++ (leBytes v.length 8 ++ v) := drop8_append _ _
  have h3 : (k ++ (leBytes v.length 8 ++ v)).take k.length = k := take_length_append _ _
  have h4 : (k ++ (leBytes v.length 8 ++ v)).drop k.length = leBytes v.length 8 ++ v :=
    drop_length_append _ _
  have h5 : deLe ((leBytes v.length 8 ++ v).take 8) = v.length := deLe_take8_append _ _ hv
  have h6 : (leBytes v.length 8 ++ v).drop 8 = v := drop8_append _ _
  have h7 : (k ++ (leBytes v.length 8 ++ v)).length = k.length + (8 + v.length) := by
    simp [length_leBytes]
  rw [deserializeKV, if_pos (by omega), h1, h2, h3, h4, h5, h6,
    if_pos (by omega), if_pos (by simp [length_leBytes]), if_pos (by simp),
    List.take_length]

theorem deserializeRecordAt_serializeRecord (r : Record) :
    deserializeRecordAt (serializeRecord r) =
      some (⟨r.ingest_ts % 2 ^ 64, r.rest.take (r.rest.length % 2 ^ 64)⟩,
        r.rest.drop (r.rest.length % 2 ^ 64)) := by
  have hlen : (serializeRecord r).length = 8 + (8 + r.rest.length) := by
    simp [serializeRecord, length_leBytes]
  have h1 : deLe ((serializeRecord r).take 8) = r.ingest_ts % 2 ^ 64 := by
    rw [serializeRecord, take8_append, deLe_leBytes_mod, pow256_8]
  have h2 : (serializeRecord r).drop 8 = leBytes r.rest.length 8 ++ r.rest :=
    drop8_append _ _
  have h3 : deLe (((serializeRecord r).drop 8).take 8) = r.rest.length % 2 ^ 64 := by
    rw [h2, take8_append, deLe_leBytes_mod, pow256_8]
  have h4 : (serializeRecord r).drop 16 = r.rest := by
    have : (16 : Nat) = 8 + 8 := by omega
    rw [this, ← List.drop_drop, h2, drop8_append]
  rw [deserializeRecordAt, if_pos (by omega), h3, h4,
    if_pos (Nat.mod_le _ _), h1]

theorem deserializeRecord_serializeRecord (r : Record) :
    deserializeRecord (serializeRecord r) =
      some ⟨r.ingest_ts % 2 ^ 64, r.rest.take (r.rest.length % 2 ^ 64)⟩ := by
  rw [deserializeRecord, deserializeRecordAt_serializeRecord]
  rfl

theorem recordTs_serializeRecord (r : Record) :
    recordTs (serializeRecord r) = r.ingest_ts % 2 ^ 64 := by
  rw [recordTs, deserializeRecord_serializeRecord]

end WxStore

namespace WxStore

/-! ### Scan and ordering lemmas -/

theorem entryOkB_facts (p : Bytes × Bytes) (h : entryOkB p = true) :
    ∃ r, deserializeRecord p.2 = some r ∧ recordTs p.2 = r.ingest_ts ∧
      p.1 ≠ [] ∧ (∀ b ∈ p.1, 48 ≤ b ∧ b ≤ 57) ∧ digitsVal p.1 = r.ingest_ts ∧
      r.ingest_ts < 2 ^ 64 := by
  simp only [entryOkB] at h
  cases hd : deserializeRecord p.2 with
  | none => rw [hd] at h; simp at h
  | some r =>
    rw [hd] at h
    simp only [decide_eq_true_eq] at h
    obtain ⟨h1, h2, h3, h4⟩ := parseU64_some p.1 r.ingest_ts h
    exact ⟨r, rfl, by rw [recordTs, hd], h1, h2, h3, h4⟩

theorem seekScan_filter_ts (ns : List (Bytes × Bytes)) (cutoff : Nat)
    (hinv : nsInv ns)
    (hlen : ∀ p ∈ ns, p.1.length = (decKey cutoff).length) :
    seekScan ns (decKey cutoff) = ns.filter (fun p => decide (cutoff ≤ recordTs p.2)) := by
  apply List.filter_congr
  intro p hp
  obtain ⟨r, hd, hts, hne, hdig, hval, hlt⟩ := entryOkB_facts p (hinv p hp)
  have hiff : bytesLt p.1 (decKey cutoff) = true ↔ recordTs p.2 < cutoff := by
    rw [bytesLt_digits_iff p.1 (decKey cutoff) hdig (decKey_digits cutoff) (hlen p hp),
      digitsVal_decKey, hval, hts]
  cases hb : bytesLt p.1 (decKey cutoff) with
  | true =>
    have h1 := hiff.mp hb
    have h2 : decide (cutoff ≤ recordTs p.2) = false := by simp; omega
    rw [h2]
    rfl
  | false =>
    have h1 : ¬ recordTs p.2 < cutoff := fun hc => by rw [hiff.mpr hc] at hb; cases hb
    have h2 : decide (cutoff ≤ recordTs p.2) = true := by simp; omega
    rw [h2]
    rfl

theorem tsAscending_of_sorted (ns : List (Bytes × Bytes)) (hinv : nsInv ns)
    (hsort : nsSorted ns)
    (hlen : ∀ p ∈ ns, ∀ q ∈ ns, p.1.length = q.1.length) : tsAscending ns := by
  apply List.Pairwise.imp_of_mem ?_ hsort
  intro p q hp hq hlt
  obtain ⟨r, hd, hts, hne, hdig, hval, hb⟩ := entryOkB_facts p (hinv p hp)
  obtain ⟨r', hd', hts', hne', hdig', hval', hb'⟩ := entryOkB_facts q (hinv q hq)
  have h := (bytesLt_digits_iff p.1 q.1 hdig hdig' (hlen p hp q hq)).mp hlt
  rw [hts, hts']
  omega

theorem seekScan_empty_of_big_cutoff (ns : List (Bytes × Bytes)) (cutoff : Nat)
    (h : ∀ p ∈ ns, entryOkB p = true ∧ recordTs p.2 < cutoff ∧
      p.1.length = (decKey cutoff).length) :
    seekScan ns (decKey cutoff) = [] := by
  rw [seekScan, List.filter_eq_nil_iff]
  intro p hp
  obtain ⟨hok, hlt, hlen⟩ := h p hp
  obtain ⟨r, hd, hts, hne, hdig, hval, hb⟩ := entryOkB_facts p hok
  have hiff : bytesLt p.1 (decKey cutoff) = true ↔ recordTs p.2 < cutoff := by
    rw [bytesLt_digits_iff p.1 (decKey cutoff) hdig (decKey_digits cutoff) hlen,
      digitsVal_decKey, hval, hts]
  simp [hiff.mpr hlt]

/-! ### Wrapping-arithmetic lemmas -/

theorem two_pow_64_eq : (2 : Nat) ^ 64 = 18446744073709551616 := by norm_num

theorem sub64_of_le (now thr : Nat) (hn : now < 2 ^ 64) (ht : thr ≤ now) :
    sub64 now thr = now - thr := by
  rw [sub64, two_pow_64_eq]
  rw [two_pow_64_eq] at hn
  omega

theorem sub64_of_gt (now thr : Nat) (hn : now < 2 ^ 64) (ht : thr < 2 ^ 64)
    (h : now < thr) : sub64 now thr = 2 ^ 64 + now - thr ∧ now < sub64 now thr := by
  rw [sub64, two_pow_64_eq]
  rw [two_pow_64_eq] at hn ht
  omega

theorem add64_of_lt (a b : Nat) (h : a + b < 2 ^ 64) : add64 a b = a + b := by
  rw [add64]
  exact Nat.mod_eq_of_lt h

/-! ### Invariant preservation -/

theorem entryOkB_new (r : Record) (now : Nat) (hn : now < 2 ^ 64) :
    entryOkB (decKey now, serializeRecord { r with ingest_ts := now }) = true := by
  have hmod : now % 2 ^ 64 = now := Nat.mod_eq_of_lt hn
  simp only [entryOkB, deserializeRecord_serializeRecord]
  simp only [hmod]
  simp [parseU64_decKey now hn]

theorem insertCf_inv (ns : List (Bytes × Bytes)) (k v : Bytes)
    (hns : nsInv ns) (hkv : entryOkB (k, v) = true) : nsInv (insertCf ns k v) := by
  induction ns with
  | nil =>
    intro p hp
    simp [insertCf] at hp
    subst hp
    exact hkv
  | cons q rest ih =>
    intro p hp
    rw [insertCf] at hp
    by_cases h1 : bytesLt k q.1
    · rw [if_pos h1] at hp
      rcases List.mem_cons.mp hp with hp | hp
      · rw [hp]; exact hkv
      · exact hns p hp
    · rw [if_neg h1] at hp
      by_cases h2 : k = q.1
      · rw [if_pos h2] at hp
        rcases List.mem_cons.mp hp with hp | hp
        · rw [hp]; exact hkv
        · exact hns p (List.mem_cons_of_mem q hp)
      · rw [if_neg h2] at hp
        rcases List.mem_cons.mp hp with hp | hp
        · rw [hp]; exact hns q (List.mem_cons_self q rest)
        · exact ih (fun p' hp' => hns p' (List.mem_cons_of_mem q hp')) p hp

theorem put_inv (s : Store) (p : Bytes) (h : StoreInv s) : StoreInv (Store.put s p).2 := by
  rw [Store.put]
  cases deserializeKV p <;> exact h

theorem get_inv (s : Store) (p : Bytes) (h : StoreInv s) : StoreInv (Store.get s p).2 := by
  rw [Store.get]
  cases dbGet s.db p <;> exact h

theorem get_events_snd (s : Store) (p : Bytes) (g : Bool) (now : Nat) :
    (Store.get_events s p g now).2 = s := by
  rw [Store.get_events]
  repeat' split
  all_goals rfl

theorem get_events_inv (s : Store) (p : Bytes) (g : Bool) (now : Nat) (h : StoreInv s) :
    StoreInv (Store.get_events s p g now).2 := by
  rw [get_events_snd]
  exact h

theorem put_event_inv (s : Store) (p : Bytes) (now : Nat) (h : StoreInv s)
    (hn : now < 2 ^ 64) : StoreInv (Store.put_event s p now).2 := by
  rw [Store.put_event]
  cases hd : deserializeRecord p with
  | none => exact h
  | some ev => exact ⟨insertCf_inv s.events _ _ h.1 (entryOkB_new ev now hn), h.2⟩

theorem put_fetch_failure_inv (s : Store) (p : Bytes) (now : Nat) (h : StoreInv s)
    (hn : now < 2 ^ 64) : StoreInv (Store.put_fetch_failure s p now).2 := by
  rw [Store.put_fetch_failure]
  cases hd : deserializeRecord p with
  | none => exact h
  | some f => exact ⟨h.1, insertCf_inv s.fetch_failures _ _ h.2 (entryOkB_new f now hn)⟩

theorem process_msg_inv (msg : Bytes) (s : Store) (now : Nat) (h : StoreInv s)
    (hn : now < 2 ^ 64) : StoreInv (process_msg msg s now).2 := by
  cases msg with
  | nil => exact h
  | cons b payload =>
    rw [process_msg]
    rcases Nat.lt_or_ge b 7 with hb | hb
    · interval_cases b
      · exact put_inv s payload h
      · exact get_inv s payload h
      · exact put_event_inv s payload now h hn
      · exact get_events_inv s payload false now h
      · exact get_events_inv s payload true now h
      · exact put_fetch_failure_inv s payload now h hn
      · exact h
    · obtain ⟨m, rfl⟩ : ∃ m, b = m + 7 := ⟨b - 7, by omega⟩
      exact h

theorem runMsgs_inv (ops : List (Bytes × Nat)) (s : Store) (h : StoreInv s)
    (hclk : ∀ op ∈ ops, op.2 < 2 ^ 64) : StoreInv (runMsgs ops s) := by
  induction ops generalizing s with
  | nil => exact h
  | cons op rest ih =>
    rw [runMsgs, List.foldl_cons]
    exact ih _ (process_msg_inv op.1 s op.2 h (hclk op (List.mem_cons_self op rest)))
      (fun op' hop' => hclk op' (List.mem_cons_of_mem op hop'))

/-! ### Protocol-error helpers -/

theorem not_protocol_put (s : Store) (p : Bytes) : ¬ isProtocolError (Store.put s p).1 := by
  rw [Store.put]
  cases deserializeKV p <;> simp [isProtocolError]

theorem not_protocol_get (s : Store) (p : Bytes) : ¬ isProtocolError (Store.get s p).1 := by
  rw [Store.get]
  cases dbGet s.db p <;> simp [isProtocolError]

theorem not_protocol_put_event (s : Store) (p : Bytes) (now : Nat) :
    ¬ isProtocolError (Store.put_event s p now).1 := by
  rw [Store.put_event]
  cases deserializeRecord p <;> simp [isProtocolError]

theorem not_protocol_of_ne_err (r : RustResult) (h : ∀ k, r ≠ RustResult.err k) :
    ¬ isProtocolError r := by
  cases r with
  | ok v => simp [isProtocolError]
  | err k => exact absurd rfl (h k)
  | panicked => simp [isProtocolError]

theorem get_events_fst_ne_err (s : Store) (p : Bytes) (g : Bool) (now : Nat) :
    ∀ k, (Store.get_events s p g now).1 ≠ RustResult.err k := by
  intro k
  rw [Store.get_events]
  repeat' split
  all_goals simp

theorem not_protocol_get_events (s : Store) (p : Bytes) (g : Bool) (now : Nat) :
    ¬ isProtocolError (Store.get_events s p g now).1 :=
  not_protocol_of_ne_err _ (get_events_fst_ne_err s p g now)

theorem not_protocol_put_fetch_failure (s : Store) (p : Bytes) (now : Nat) :
    ¬ isProtocolError (Store.put_fetch_failure s p now).1 := by
  rw [Store.put_fetch_failure]
  cases deserializeRecord p <;> simp [isProtocolError]

theorem not_protocol_get_fetch_failures (s : Store) (now : Nat) :
    ¬ isProtocolError (Store.get_fetch_failures s now).1 := by
  rw [Store.get_fetch_failures]
  simp [isProtocolError]

end WxStore

namespace WxStore

/-! ### Dispatch and operation equations -/

theorem get_events_threshold_eq (s : Store) (now : Nat) :
    Store.get_events s [] false now =
      (RustResult.ok
        (envelopeOf (seekScan s.events (decKey (sub64 now s.event_threshold_micros)))), s) := rfl

theorem get_events_resume_eq (s : Store) (c now : Nat) (hc : c + 1 < 2 ^ 64) :
    Store.get_events s (serializeStr (decKey c)) false now =
      (RustResult.ok (envelopeOf (seekScan s.events (decKey (c + 1)))), s) := by
  have hlenk := decKey_length_le c
  have h1 : deserializeStr (serializeStr (decKey c)) = some (decKey c) :=
    deserializeStr_serializeStr _ (by omega)
  have h2 : parseU64 (decKey c) = some c := parseU64_decKey c (by omega)
  have hlen : (serializeStr (decKey c)).length = 8 + (decKey c).length := by
    simp [serializeStr, length_leBytes]
  have hne : (serializeStr (decKey c)).isEmpty = false := by
    cases hl : serializeStr (decKey c) with
    | nil => rw [hl, List.length_nil] at hlen; omega
    | cons a l => rfl
  rw [Store.get_events]
  simp only [Bool.false_eq_true, if_false, hne, h1, h2, add64_of_lt c 1 hc]

theorem put_event_eq (s : Store) (v : Bytes) (r : Record) (now : Nat)
    (h : deserializeRecord v = some r) :
    Store.put_event s v now =
      (RustResult.ok (leBytes now 8),
       { s with events := insertCf s.events (decKey now) (serializeRecord { r with ingest_ts := now }) }) := by
  rw [Store.put_event, h]

theorem put_fetch_failure_eq (s : Store) (v : Bytes) (r : Record) (now : Nat)
    (h : deserializeRecord v = some r) :
    Store.put_fetch_failure s v now =
      (RustResult.ok [],
       { s with fetch_failures := insertCf s.fetch_failures (decKey now) (serializeRecord { r with ingest_ts := now }) }) := by
  rw [Store.put_fetch_failure, h]

theorem dbGet_dbPut (db : List (Bytes × Bytes)) (k v : Bytes) :
    dbGet (dbPut db k v) k = some v := by
  simp [dbGet, dbPut, List.find?]

end WxStore

namespace WxStore

/-! ### Claim theorems -/

/-- Claim C1 counterexample: in the store holding events at timestamps 10 and
5 with retention threshold 10, `GetEvents` with empty payload at clock time 17
(cutoff 7) returns the empty envelope (count 0) even though exactly one stored
event — the one with `ingest_ts = 10` — satisfies `ingest_ts ≥ 7`, because the
two-digit key string of 10 sorts below the one-digit cutoff string of 7. -/
theorem get_events_threshold_cex :
    (process_msg [3] storeTenFive 17).1 = RustResult.ok (leBytes 0 8) ∧
    storeTenFive.events.filter
      (fun p => decide (17 - storeTenFive.event_threshold_micros ≤ recordTs p.2)) =
      [(decKey 10, serializeRecord (evRec 10))] ∧
    (process_msg [3] storeTenFive 17).1 ≠
      RustResult.ok (leBytes 1 8 ++ serializeRecord (evRec 10)) := by decide

/-- Claim C1 (amended): when the retention threshold does not exceed the clock
and every stored key has the same digit count as the cutoff's decimal string,
`GetEvents` with an empty payload returns exactly the stored events with
`ingest_ts ≥ now - event_threshold_micros`, concatenated in ascending
`ingest_ts` order, with the 8-byte count equal to the number of such events,
and leaves the store unchanged. -/
theorem get_events_threshold_spec (s : Store) (now : Nat)
    (hinv : nsInv s.events) (hsort : nsSorted s.events)
    (hthr : s.event_threshold_micros ≤ now) (hnow : now < 2 ^ 64)
    (hlen : ∀ p ∈ s.events, p.1.length = (decKey (now - s.event_threshold_micros)).length) :
    process_msg [3] s now =
      (RustResult.ok (envelopeOf
        (s.events.filter (fun p => decide (now - s.event_threshold_micros ≤ recordTs p.2)))), s) ∧
    tsAscending
      (s.events.filter (fun p => decide (now - s.event_threshold_micros ≤ recordTs p.2))) := by
  have hsub : sub64 now s.event_threshold_micros = now - s.event_threshold_micros :=
    sub64_of_le now _ hnow hthr
  have hscan := seekScan_filter_ts s.events (now - s.event_threshold_micros) hinv hlen
  constructor
  · have hdis : process_msg [3] s now = Store.get_events s [] false now := rfl
    rw [hdis, get_events_threshold_eq, hsub, hscan]
  · exact (tsAscending_of_sorted s.events hinv hsort
      (fun p hp q hq => by rw [hlen p hp, hlen q hq])).sublist (List.filter_sublist _)

/-- Claim C1 witness: the amended threshold-scan theorem applied to a concrete
store (one event at timestamp 15, threshold 7, clock 20). -/
theorem get_events_threshold_spec_witness :
    process_msg [3] storeW1 20 =
      (RustResult.ok (envelopeOf
        (storeW1.events.filter
          (fun p => decide (20 - storeW1.event_threshold_micros ≤ recordTs p.2)))), storeW1) ∧
    tsAscending
      (storeW1.events.filter
        (fun p => decide (20 - storeW1.event_threshold_micros ≤ recordTs p.2))) :=
  get_events_threshold_spec storeW1 20 (by decide) (by decide) (by decide) (by decide) (by decide)

/-- Claim C2 counterexample: with a single event stored at timestamp 9 and a
cursor of 9, the resume scan seeks to the decimal string of 10, yet still
returns the record whose `ingest_ts` equals the cursor itself, because the
one-digit key string of 9 sorts above the two-digit seek string of 10. -/
theorem get_events_resume_cex :
    (process_msg (3 :: serializeStr (decKey 9)) storeNine 0).1 =
      RustResult.ok (leBytes 1 8 ++ serializeRecord (evRec 9)) ∧
    recordTs (serializeRecord (evRec 9)) = 9 := by decide

/-- Claim C2 (amended): for a cursor `c` (with `c + 1` in u64 range) supplied
as a serialized decimal string, when every stored key has the same digit count
as the decimal string of `c + 1`, the resume scan seeks to `c + 1` and returns
exactly the records with `ingest_ts > c`, in ascending `ingest_ts` order; in
particular no returned record carries `ingest_ts = c`. -/
theorem get_events_resume_spec (s : Store) (c now : Nat)
    (hinv : nsInv s.events) (hsort : nsSorted s.events) (hc : c + 1 < 2 ^ 64)
    (hlen : ∀ p ∈ s.events, p.1.length = (decKey (c + 1)).length) :
    process_msg (3 :: serializeStr (decKey c)) s now =
      (RustResult.ok (envelopeOf (s.events.filter (fun p => decide (c < recordTs p.2)))), s) ∧
    tsAscending (s.events.filter (fun p => decide (c < recordTs p.2))) ∧
    ∀ p ∈ s.events.filter (fun p => decide (c < recordTs p.2)), recordTs p.2 ≠ c := by
  have hfe : (fun p : Bytes × Bytes => decide (c + 1 ≤ recordTs p.2)) =
      (fun p : Bytes × Bytes => decide (c < recordTs p.2)) := by
    funext p
    rw [decide_eq_decide]
    omega
  have hscan := seekScan_filter_ts s.events (c + 1) hinv hlen
  rw [hfe] at hscan
  refine ⟨?_, ?_, ?_⟩
  · have hdis : process_msg (3 :: serializeStr (decKey c)) s now =
        Store.get_events s (serializeStr (decKey c)) false now := rfl
    rw [hdis, get_events_resume_eq s c now hc, hscan]
  · exact (tsAscending_of_sorted s.events hinv hsort
      (fun p hp q hq => by rw [hlen p hp, hlen q hq])).sublist (List.filter_sublist _)
  · intro p hp
    have h2 := (List.mem_filter.mp hp).2
    simp only [decide_eq_true_eq] at h2
    omega

/-- Claim C2 witness: the amended resume-scan theorem applied to a concrete
store (one event at timestamp 15) with cursor 14. -/
theorem get_events_resume_spec_witness :
    process_msg (3 :: serializeStr (decKey 14)) storeW1 0 =
      (RustResult.ok (envelopeOf
        (storeW1.events.filter (fun p => decide (14 < recordTs p.2)))), storeW1) ∧
    tsAscending (storeW1.events.filter (fun p => decide (14 < recordTs p.2))) ∧
    ∀ p ∈ storeW1.events.filter (fun p => decide (14 < recordTs p.2)), recordTs p.2 ≠ 14 :=
  get_events_resume_spec storeW1 14 0 (by decide) (by decide) (by decide) (by decide)

/-- Claim C3: starting from any store satisfying the time-ordered-namespace
invariant, after any sequence of requests (run at u64 clock values) every
record stored in the `events` and `fetch_failures` namespaces carries an
`ingest_ts` equal to the decimal value of the key it is stored under;
moreover `put_event` overwrites the caller's `ingest_ts` with the store's
clock value, stores the record under that clock value's decimal-string key,
and returns the 8-byte serialization of that same timestamp, and
`put_fetch_failure` does the same returning an empty payload. -/
theorem ingest_ts_invariant (ops : List (Bytes × Nat)) (s0 : Store)
    (h0 : StoreInv s0) (hclk : ∀ op ∈ ops, op.2 < 2 ^ 64) :
    StoreInv (runMsgs ops s0) ∧
    (∀ (s : Store) (v : Bytes) (r : Record) (now : Nat),
      deserializeRecord v = some r →
      Store.put_event s v now =
        (RustResult.ok (leBytes now 8),
         { s with events := insertCf s.events (decKey now) (serializeRecord { r with ingest_ts := now }) })) ∧
    (∀ (s : Store) (v : Bytes) (r : Record) (now : Nat),
      deserializeRecord v = some r →
      Store.put_fetch_failure s v now =
        (RustResult.ok [],
         { s with fetch_failures := insertCf s.fetch_failures (decKey now) (serializeRecord { r with ingest_ts := now }) })) := by
  refine ⟨runMsgs_inv ops s0 h0 hclk, ?_, ?_⟩
  · intro s v r now h
    exact put_event_eq s v r now h
  · intro s v r now h
    exact put_fetch_failure_eq s v r now h

/-- Claim C3 witness: the invariant after a concrete `PutEvent` request run at
clock value 5 against a fresh store. -/
theorem ingest_ts_invariant_witness :
    StoreInv (runMsgs [(2 :: serializeRecord (evRec 3), 5)] (initStore 0 0)) :=
  (ingest_ts_invariant [(2 :: serializeRecord (evRec 3), 5)] (initStore 0 0)
    (by decide) (by decide)).1

/-- Claim C4: `Put(k, v)` returns the key bytes and a subsequent `Get(k)`
returns `v`; `Get` of a key that was never written returns empty bytes with a
success status, not an error. -/
theorem put_get_round_trip (s : Store) (k v : Bytes) (now : Nat)
    (hk : k.length < 2 ^ 64) (hv : v.length < 2 ^ 64) :
    (process_msg (0 :: serializeKV k v) s now).1 = RustResult.ok k ∧
    (process_msg (1 :: k) (process_msg (0 :: serializeKV k v) s now).2 now).1 =
      RustResult.ok v ∧
    (∀ s' : Store, dbGet s'.db k = none →
      (process_msg (1 :: k) s' now).1 = RustResult.ok []) := by
  have hkv := deserializeKV_serializeKV k v hk hv
  have h0 : process_msg (0 :: serializeKV k v) s now = Store.put s (serializeKV k v) := rfl
  have hput : Store.put s (serializeKV k v) =
      (RustResult.ok k, { s with db := dbPut s.db k v }) := by
    rw [Store.put, hkv]
  refine ⟨?_, ?_, ?_⟩
  · rw [h0, hput]
  · rw [h0, hput]
    have h1 : process_msg (1 :: k) { s with db := dbPut s.db k v } now =
        Store.get { s with db := dbPut s.db k v } k := rfl
    rw [h1, Store.get]
    simp only [dbGet_dbPut]
  · intro s' hnone
    have h1 : process_msg (1 :: k) s' now = Store.get s' k := rfl
    rw [h1, Store.get, hnone]

/-- Claim C4 witness: the round trip at key `[116, 101]` and value `[7, 8]`
against a fresh store, plus a `Get` of the never-written key. -/
theorem put_get_round_trip_witness :
    (process_msg (0 :: serializeKV [116, 101] [7, 8]) (initStore 0 0) 0).1 =
      RustResult.ok [116, 101] ∧
    (process_msg (1 :: [116, 101])
      (process_msg (0 :: serializeKV [116, 101] [7, 8]) (initStore 0 0) 0).2 0).1 =
      RustResult.ok [7, 8] ∧
    (process_msg (1 :: [116, 101]) (initStore 0 0) 0).1 = RustResult.ok [] := by
  obtain ⟨h1, h2, h3⟩ :=
    put_get_round_trip (initStore 0 0) [116, 101] [7, 8] 0 (by decide) (by decide)
  exact ⟨h1, h2, h3 (initStore 0 0) (by decide)⟩

/-- Claim C5 (code bug): a `Put` request whose payload cannot be deserialized
as a `(key, value)` tuple makes `process_msg` panic (the `.unwrap()` on
`deserialize` at src/lib.rs:62), rather than return an error result; the
binary installs no panic handler, so the process aborts instead of sending an
error response. -/
theorem process_msg_panics_on_malformed :
    process_msg [0, 255] (initStore 0 0) 0 = (RustResult.panicked, initStore 0 0) ∧
    deserializeKV [255] = none := by decide

/-- Claim C6 counterexample: with events stored at timestamps 10 and 5,
`GetAllEvents` returns both records but in bytewise key order — the record
with `ingest_ts = 10` strictly before the record with `ingest_ts = 5` — so
the result is not in ascending `ingest_ts` order. -/
theorem get_all_events_cex :
    (process_msg [4] storeTenFive 0).1 =
      RustResult.ok (leBytes 2 8 ++
        (serializeRecord (evRec 10) ++ (serializeRecord (evRec 5) ++ []))) ∧
    recordTs (serializeRecord (evRec 10)) = 10 ∧
    recordTs (serializeRecord (evRec 5)) = 5 ∧
    ¬ tsAscending storeTenFive.events := by decide

/-- Claim C6 (amended): `GetAllEvents` returns every stored event (whole
namespace, regardless of age) in bytewise key order, independent of the
payload bytes following the opcode; the order is ascending in `ingest_ts`
whenever all stored keys share the same digit count. -/
theorem get_all_events_spec (s : Store) (p : Bytes) (now : Nat)
    (hinv : nsInv s.events) (hsort : nsSorted s.events)
    (hlen : ∀ q ∈ s.events, ∀ q' ∈ s.events, q.1.length = q'.1.length) :
    process_msg (4 :: p) s now = (RustResult.ok (envelopeOf s.events), s) ∧
    tsAscending s.events :=
  ⟨rfl, tsAscending_of_sorted s.events hinv hsort hlen⟩

/-- Claim C6 witness: the get-all theorem applied to a concrete store with
events at timestamps 12 and 15, with an arbitrary nonempty payload. -/
theorem get_all_events_spec_witness :
    process_msg (4 :: [9]) storeW6 0 = (RustResult.ok (envelopeOf storeW6.events), storeW6) ∧
    tsAscending storeW6.events :=
  get_all_events_spec storeW6 [9] 0 (by decide) (by decide) (by decide)

/-- Claim C7 counterexample: with fetch failures stored at timestamps 10 and 5
and threshold 10, `GetFetchFailures` at clock time 17 (cutoff 7) returns the
empty envelope even though the record with `ingest_ts = 10` is at or above the
cutoff, because its two-digit key sorts below the one-digit cutoff string. -/
theorem get_fetch_failures_cex :
    (process_msg [6, 99] storeFailTenFive 17).1 = RustResult.ok (leBytes 0 8) ∧
    storeFailTenFive.fetch_failures.filter
      (fun p => decide (17 - storeFailTenFive.fetch_failure_threshold_micros ≤ recordTs p.2)) =
      [(decKey 10, serializeRecord (evRec 10))] := by decide

/-- Claim C7 (amended): `GetFetchFailures` always performs a threshold scan
with cutoff `now - fetch_failure_threshold_micros` over the `fetch_failures`
namespace, ignoring any payload bytes after the opcode; when the threshold
does not exceed the clock and every stored key has the cutoff's digit count,
it returns the count-prefixed envelope of exactly the records with
`ingest_ts` at or above the cutoff, in ascending order. -/
theorem get_fetch_failures_spec (s : Store) (p : Bytes) (now : Nat)
    (hinv : nsInv s.fetch_failures) (hsort : nsSorted s.fetch_failures)
    (hthr : s.fetch_failure_threshold_micros ≤ now) (hnow : now < 2 ^ 64)
    (hlen : ∀ q ∈ s.fetch_failures,
      q.1.length = (decKey (now - s.fetch_failure_threshold_micros)).length) :
    process_msg (6 :: p) s now = Store.get_fetch_failures s now ∧
    Store.get_fetch_failures s now =
      (RustResult.ok (envelopeOf (s.fetch_failures.filter
        (fun q => decide (now - s.fetch_failure_threshold_micros ≤ recordTs q.2)))), s) ∧
    tsAscending (s.fetch_failures.filter
      (fun q => decide (now - s.fetch_failure_threshold_micros ≤ recordTs q.2))) := by
  have hsub : sub64 now s.fetch_failure_threshold_micros =
      now - s.fetch_failure_threshold_micros :=
    sub64_of_le now _ hnow hthr
  have hscan := seekScan_filter_ts s.fetch_failures
    (now - s.fetch_failure_threshold_micros) hinv hlen
  refine ⟨rfl, ?_, ?_⟩
  · rw [Store.get_fetch_failures, hsub, hscan]
  · exact (tsAscending_of_sorted s.fetch_failures hinv hsort
      (fun q hq q' hq' => by rw [hlen q hq, hlen q' hq'])).sublist (List.filter_sublist _)

/-- Claim C7 witness: the fetch-failure threshold-scan theorem applied to a
concrete store (one failure at timestamp 15, threshold 7, clock 20). -/
theorem get_fetch_failures_spec_witness :
    process_msg (6 :: [1]) storeW7 20 = Store.get_fetch_failures storeW7 20 ∧
    Store.get_fetch_failures storeW7 20 =
      (RustResult.ok (envelopeOf (storeW7.fetch_failures.filter
        (fun q => decide (20 - storeW7.fetch_failure_threshold_micros ≤ recordTs q.2)))), storeW7) ∧
    tsAscending (storeW7.fetch_failures.filter
      (fun q => decide (20 - storeW7.fetch_failure_threshold_micros ≤ recordTs q.2))) :=
  get_fetch_failures_spec storeW7 [1] 20 (by decide) (by decide) (by decide) (by decide) (by decide)

/-- Claim C8: every scan mode that visits zero records still returns a
well-formed envelope — the 8-byte encoding of zero with an empty body — and
that envelope decodes on the caller side as the empty record list, not an
error. -/
theorem empty_scan_envelope (s : Store) (now c : Nat) (p : Bytes) (hc : c + 1 < 2 ^ 64) :
    (seekScan s.events (decKey (sub64 now s.event_threshold_micros)) = [] →
      (Store.get_events s [] false now).1 = RustResult.ok (leBytes 0 8)) ∧
    (s.events = [] →
      (Store.get_events s p true now).1 = RustResult.ok (leBytes 0 8)) ∧
    (seekScan s.events (decKey (c + 1)) = [] →
      (Store.get_events s (serializeStr (decKey c)) false now).1 = RustResult.ok (leBytes 0 8)) ∧
    (seekScan s.fetch_failures (decKey (sub64 now s.fetch_failure_threshold_micros)) = [] →
      (Store.get_fetch_failures s now).1 = RustResult.ok (leBytes 0 8)) ∧
    deserializeRecList (leBytes 0 8) = some [] := by
  refine ⟨?_, ?_, ?_, ?_, by decide⟩
  · intro h
    rw [get_events_threshold_eq, h]
    simp [envelopeOf, concatBytes]
  · intro h
    have hall : Store.get_events s p true now = (RustResult.ok (envelopeOf s.events), s) := rfl
    rw [hall, h]
    simp [envelopeOf, concatBytes]
  · intro h
    rw [get_events_resume_eq s c now hc, h]
    simp [envelopeOf, concatBytes]
  · intro h
    rw [Store.get_fetch_failures, h]
    simp [envelopeOf, concatBytes]

/-- Claim C8 witness: all scan modes against the fresh empty store return the
zero envelope, which decodes as the empty list. -/
theorem empty_scan_envelope_witness :
    (Store.get_events (initStore 0 0) [] false 0).1 = RustResult.ok (leBytes 0 8) ∧
    (Store.get_events (initStore 0 0) [3] true 0).1 = RustResult.ok (leBytes 0 8) ∧
    (Store.get_fetch_failures (initStore 0 0) 0).1 = RustResult.ok (leBytes 0 8) ∧
    deserializeRecList (leBytes 0 8) = some [] :=
  ⟨(empty_scan_envelope (initStore 0 0) 0 0 [3] (by decide)).1 (by decide),
   (empty_scan_envelope (initStore 0 0) 0 0 [3] (by decide)).2.1 (by decide),
   (empty_scan_envelope (initStore 0 0) 0 0 [3] (by decide)).2.2.2.1 (by decide),
   (empty_scan_envelope (initStore 0 0) 0 0 [3] (by decide)).2.2.2.2⟩

/-- Claim C9: `process_msg` returns a protocol error exactly when the request
is empty or its first byte is not one of the seven opcodes 0–6, and in those
cases the store state is unchanged (no store operation runs). -/
theorem process_msg_protocol_error (msg : Bytes) (s : Store) (now : Nat) :
    (isProtocolError (process_msg msg s now).1 ↔
      msg = [] ∨ ∃ b p, msg = b :: p ∧ 6 < b) ∧
    (isProtocolError (process_msg msg s now).1 → (process_msg msg s now).2 = s) := by
  cases msg with
  | nil =>
    constructor
    · constructor
      · intro _
        exact Or.inl rfl
      · intro _
        exact trivial
    · intro _
      rfl
  | cons b p =>
    rcases Nat.lt_or_ge b 7 with hb | hb
    · have hnp : ¬ isProtocolError (process_msg (b :: p) s now).1 := by
        interval_cases b
        · exact not_protocol_put s p
        · exact not_protocol_get s p
        · exact not_protocol_put_event s p now
        · exact not_protocol_get_events s p false now
        · exact not_protocol_get_events s p true now
        · exact not_protocol_put_fetch_failure s p now
        · exact not_protocol_get_fetch_failures s now
      constructor
      · constructor
        · intro h
          exact absurd h hnp
        · rintro (h | ⟨b', p', heq, hgt⟩)
          · cases h
          · injection heq with h1 h2
            omega
      · intro h
        exact absurd h hnp
    · obtain ⟨m, rfl⟩ : ∃ m, b = m + 7 := ⟨b - 7, by omega⟩
      have hpm : process_msg ((m + 7) :: p) s now = (RustResult.err ErrKind.unknownCommand, s) := rfl
      rw [hpm]
      constructor
      · constructor
        · intro _
          exact Or.inr ⟨m + 7, p, rfl, by omega⟩
        · intro _
          exact trivial
      · intro _
        rfl

/-- Claim C9 witness: the empty request yields a protocol error and leaves the
store untouched. -/
theorem process_msg_protocol_error_witness :
    isProtocolError (process_msg [] (initStore 0 0) 0).1 ∧
    (process_msg [] (initStore 0 0) 0).2 = initStore 0 0 :=
  ⟨((process_msg_protocol_error [] (initStore 0 0) 0).1).mpr (Or.inl rfl),
   (process_msg_protocol_error [] (initStore 0 0) 0).2
     (((process_msg_protocol_error [] (initStore 0 0) 0).1).mpr (Or.inl rfl))⟩

/-- Claim C10: the cutoff `now - threshold` is unguarded wrapping u64
subtraction: it equals the mathematical difference precisely under the
precondition `threshold ≤ now`; if `threshold > now` it wraps to
`2^64 + now - threshold`, a value strictly above `now` (so, when all stored
timestamps are at most `now` and keys share the cutoff's digit count, the
scan visits nothing). Both the `GetEvents` threshold scan and every
`GetFetchFailures` call seek at this wrapped cutoff. -/
theorem cutoff_underflow (s : Store) (now thr : Nat) (hn : now < 2 ^ 64) (ht : thr < 2 ^ 64) :
    (thr ≤ now → sub64 now thr = now - thr) ∧
    (now < thr → sub64 now thr = 2 ^ 64 + now - thr ∧ now < sub64 now thr) ∧
    (s.event_threshold_micros = thr →
      (Store.get_events s [] false now).1 =
        RustResult.ok (envelopeOf (seekScan s.events (decKey (sub64 now thr))))) ∧
    (s.fetch_failure_threshold_micros = thr →
      (Store.get_fetch_failures s now).1 =
        RustResult.ok (envelopeOf (seekScan s.fetch_failures (decKey (sub64 now thr))))) ∧
    (now < thr →
      (∀ p ∈ s.events, entryOkB p = true ∧ recordTs p.2 ≤ now ∧
        p.1.length = (decKey (sub64 now thr)).length) →
      seekScan s.events (decKey (sub64 now thr)) = []) := by
  refine ⟨fun h => sub64_of_le now thr hn h, fun h => sub64_of_gt now thr hn ht h, ?_, ?_, ?_⟩
  · intro he
    rw [get_events_threshold_eq, he]
  · intro he
    rw [Store.get_fetch_failures, he]
  · intro hlt hall
    apply seekScan_empty_of_big_cutoff
    intro q hq
    obtain ⟨hok, hle, hl⟩ := hall q hq
    have hbig := (sub64_of_gt now thr hn ht hlt).2
    exact ⟨hok, by omega, hl⟩

/-- Claim C10 witness: at clock 3 with threshold 5 the cutoff wraps to a value
above the clock. -/
theorem cutoff_underflow_witness :
    sub64 3 5 = 2 ^ 64 + 3 - 5 ∧ 3 < sub64 3 5 :=
  (cutoff_underflow (initStore 0 5) 3 5 (by decide) (by decide)).2.1 (by decide)

end WxStore
